import Mathlib

/-!
Verification of the Koka schedule-builder core against its specification.

The Rust sources under `src-tauri/src` are shallowly embedded below:

* `tauri_backend/class_combinations.rs` — `generate_combinations`, `backtrack`,
  `is_compatible` (the backtracking schedule generator and its conflict test);
* `tauri_backend/scrape_classes.rs` — `filter_classes`, `validate_time_ok`
  (the section filter and the section-versus-blocked-event test);
* `tauri_backend/event_processor.rs` — `EventProcessor::process_events` and its
  helpers (the calendar layout engine).

Modelling conventions:

* Rust `i32` times are embedded as `Int`.  The arithmetic performed on them
  (comparisons, `/ 100`, `% 100`, small sums) never approaches the `i32`
  range on HHMM-encoded times, and for positive operands Rust truncating
  division agrees with `Int` euclidean division, so no wrap-around modelling
  is needed.
* The Rust fixed-size array `[((i32, i32), bool); 5]` of weekday slots is
  embedded as a `List` read with `List.getD`; the source only ever reads
  indices `0..5`, and every value produced by the program has length 5, so
  the two views agree on all program data.  Out-of-range reads default to an
  inactive slot, which mirrors the fact that they cannot occur in Rust.
* The layout percentages that Rust computes in `f64` and renders as strings
  with two decimals (`format!("{:.2}%")`) are embedded as exact rationals;
  the claims under study are about the percentage values `100/N`,
  `i * 100/N`, `minutes/720 * 100`, which are exact in `ℚ`.
* `HashMap<String, Vec<_>>` keyed by the digits `"0".."6"` is embedded as a
  total function `Nat → List _` that is empty outside `0..7`; an absent key
  and an empty bucket are identified.
* Functions whose Rust signature is `Result<_, anyhow::Error>` but whose body
  can only ever build `Ok` are embedded as `Except String _` valued and
  return `.ok`; this keeps the error channel visible in the types.
-/

namespace Koka

/-- Decidable equality on `Except`, needed to evaluate the embedded
`Result`-returning functions on concrete fixtures. -/
instance {ε α : Type} [DecidableEq ε] [DecidableEq α] : DecidableEq (Except ε α) :=
  fun x y =>
    match x, y with
    | .ok a, .ok b =>
      if h : a = b then isTrue (by rw [h])
      else isFalse (by intro hc; cases hc; exact h rfl)
    | .error a, .error b =>
      if h : a = b then isTrue (by rw [h])
      else isFalse (by intro hc; cases hc; exact h rfl)
    | .ok _, .error _ => isFalse (by intro hc; cases hc)
    | .error _, .ok _ => isFalse (by intro hc; cases hc)

/-- One weekday entry of a section's meeting pattern: `((start, end), active)`,
mirroring the Rust `((i32, i32), bool)`. -/
abbrev Slot := (Int × Int) × Bool

/-- Default used for out-of-range weekday reads; never produced by program data. -/
def inactiveSlot : Slot := ((0, 0), false)

/-- Embedding of `TimeBlock` from `objects.rs` (field `section` is renamed
`sectionId` because `section` is a Lean keyword). -/
structure TimeBlock where
  sectionId : String
  location : String
  days : List Slot
  instructor : String
deriving DecidableEq, Repr, Inhabited

/-- Embedding of `Class` from `objects.rs`: one scraped section of a course,
whose `classes` field lists its lecture/lab/... time blocks. -/
structure Class where
  code : String
  name : String
  description : String
  classes : List TimeBlock
deriving DecidableEq, Repr, Inhabited

/-- Embedding of `EventParam` from `objects.rs`: a user blocked event with a
`(start, end)` time range and five weekday flags. -/
structure EventParam where
  time : Int × Int
  days : List Bool
deriving DecidableEq, Repr, Inhabited

/-- Embedding of `ClassParam` from `objects.rs`: the user's constraint for one
requested course (field `section` renamed `sectionId`). -/
structure ClassParam where
  id : String
  code : String
  name : String
  sectionId : String
  instructor : String
deriving DecidableEq, Repr, Inhabited

/-- Embedding of `ScrapeClassesParameters` from `objects.rs`. -/
structure ScrapeClassesParameters where
  paramsCheckbox : List Bool
  classes : List ClassParam
  events : List EventParam
deriving DecidableEq, Repr, Inhabited

/-! ## `class_combinations.rs` -/

/-- Per-day conflict test inlined in `is_compatible`
(`class_combinations.rs:152-172`): both days active and
`new_start < existing_end && new_end > existing_start`. -/
def slotConflict (newDay existingDay : Slot) : Bool :=
  newDay.2 && existingDay.2 &&
    (decide (newDay.1.1 < existingDay.1.2) && decide (newDay.1.2 > existingDay.1.1))

/-- Conflict test between two time blocks: the `for day_idx in 0..5` loop of
`is_compatible`. -/
def timeBlockConflict (newSection existingSection : TimeBlock) : Bool :=
  (List.range 5).any fun dayIdx =>
    slotConflict (newSection.days.getD dayIdx inactiveSlot)
      (existingSection.days.getD dayIdx inactiveSlot)

/-- Conflict test between two classes: every pair of their time blocks is
examined (`is_compatible`'s two inner `for` loops). -/
def classConflict (newClass existingClass : Class) : Bool :=
  newClass.classes.any fun newSection =>
    existingClass.classes.any fun existingSection =>
      timeBlockConflict newSection existingSection

/-- Embedding of `is_compatible` (`class_combinations.rs:142-178`): the
candidate class at `newClassIdx` conflicts with no class already scheduled. -/
def is_compatible (allClasses : List Class) (newClassIdx : Nat)
    (scheduleIndices : List Nat) : Bool :=
  scheduleIndices.all fun existingIdx =>
    ! classConflict (allClasses.getD newClassIdx default)
        (allClasses.getD existingIdx default)

/-- Embedding of `backtrack` (`class_combinations.rs:84-125`).  The Rust
function walks `class_indices` by an increasing `current_group` counter; here
the yet-unprocessed suffix of `class_indices` is consumed structurally, which
is the same traversal.  The base case keeps the source's redundant
`current_schedule.len() == total_groups` guard. -/
def backtrack (flattenedClasses : List Class) (classIndices : List (List Nat))
    (currentSchedule : List Nat) (totalGroups : Nat) : List (List Nat) :=
  match classIndices with
  | [] => if currentSchedule.length = totalGroups then [currentSchedule] else []
  | g :: rest =>
    g.flatMap fun classIdx =>
      if is_compatible flattenedClasses classIdx currentSchedule then
        backtrack flattenedClasses rest (currentSchedule ++ [classIdx]) totalGroups
      else []

/-- Index structure built by the first loop of `generate_combinations`
(`class_combinations.rs:30-37`): group `i` is mapped to the consecutive
positions of its members inside the flattened class list. -/
def buildIndices : List (List Class) → Nat → List (List Nat)
  | [], _ => []
  | g :: rest, offset =>
    ((List.range g.length).map (· + offset)) :: buildIndices rest (offset + g.length)

/-- Embedding of `generate_combinations` (`class_combinations.rs:23-65`):
flatten the groups, run `backtrack` from group 0 with an empty partial
schedule, then map the index lists back to classes.  The Rust body has no
error path, so the `Result` is always `Ok`. -/
def generate_combinations (classes : List (List Class)) :
    Except String (List (List Class)) :=
  let flattenedClasses := classes.flatten
  let classIndices := buildIndices classes 0
  let results := backtrack flattenedClasses classIndices [] classes.length
  Except.ok (results.map fun schedule =>
    schedule.map fun idx => flattenedClasses.getD idx default)

/-! ## `scrape_classes.rs` -/

/-- Embedding of `validate_time_ok` (`scrape_classes.rs:462-486`): a time
block is acceptable iff on every weekday on which it is active, no user event
active that day overlaps it under the inclusive test
`day.start <= event.end && day.end >= event.start`. -/
def validate_time_ok (events : List EventParam) (days : List Slot) : Bool :=
  days.enum.all fun dayEntry =>
    !dayEntry.2.2 ||
      events.all fun event =>
        !(event.days.getD dayEntry.1 false) ||
          !(decide (dayEntry.2.1.1 ≤ event.time.2) && decide (dayEntry.2.1.2 ≥ event.time.1))

/-- ASCII-case-insensitive character fold used by Rust's
`str::eq_ignore_ascii_case`. -/
def asciiLower (c : Char) : Char :=
  if 'A' ≤ c && c ≤ 'Z' then Char.ofNat (c.toNat + 32) else c

/-- Embedding of Rust's `str::eq_ignore_ascii_case` at character granularity
(on UTF-8 data the byte-wise and character-wise folds agree, since the fold
only touches ASCII letters). -/
def eqIgnoreAsciiCase (a b : String) : Bool :=
  a.data.map asciiLower == b.data.map asciiLower

/-- The per-section predicate of the `filter` closure inside `filter_classes`
(`scrape_classes.rs:314-339`): non-empty time block list, section-number
match, instructor match, and all time blocks clear of the user's events. -/
def sectionKeep (desiredClass : ClassParam) (events : List EventParam)
    (sec : Class) : Bool :=
  !sec.classes.isEmpty &&
  (desiredClass.sectionId.isEmpty ||
    sec.classes.any fun blk => blk.sectionId == desiredClass.sectionId) &&
  (desiredClass.instructor.isEmpty ||
    sec.classes.any fun blk => eqIgnoreAsciiCase blk.instructor desiredClass.instructor) &&
  (sec.classes.all fun timeBlock => validate_time_ok events timeBlock.days)

/-- Embedding of `filter_classes` (`scrape_classes.rs:284-354`): an empty
input short-circuits to an empty output; otherwise the groups are zipped
positionally with the user constraints (Rust's `zip` also truncates to the
shorter side) and each group is filtered, empty groups being kept.  The body
has no error path, so the `Result` is always `Ok`. -/
def filter_classes (inputClasses : List (List Class))
    (parameters : ScrapeClassesParameters) : Except String (List (List Class)) :=
  if inputClasses.isEmpty then Except.ok []
  else
    Except.ok ((inputClasses.zip parameters.classes).map fun courseDesired =>
      courseDesired.1.filter (sectionKeep courseDesired.2 parameters.events))

/-! ## `event_processor.rs` -/

/-- Embedding of `Event` from `objects.rs`. -/
structure Event where
  id : String
  title : String
  start_time : Int
  end_time : Int
  day : Int
  professor : String
  description : String
deriving DecidableEq, Repr, Inhabited

/-- Embedding of `ProcessedEvent` from `event_processor.rs`.  The four CSS
percentage fields that Rust keeps as `f64`-formatted strings are kept here as
exact rationals (see the header comment). -/
structure ProcessedEvent where
  id : String
  title : String
  start_time : Int
  end_time : Int
  day : Int
  professor : String
  description : String
  start_time_int : Int
  end_time_int : Int
  start_time_formatted : String
  end_time_formatted : String
  width : ℚ
  left : ℚ
  top_position : ℚ
  height_position : ℚ
deriving DecidableEq, Repr, Inhabited

/-- `START_HOUR` from `event_processor.rs`. -/
def START_HOUR : Int := 8

/-- `END_HOUR` from `event_processor.rs`. -/
def END_HOUR : Int := 20

/-- `TOTAL_MINUTES_IN_VIEW` from `event_processor.rs`. -/
def TOTAL_MINUTES_IN_VIEW : Int := (END_HOUR - START_HOUR) * 60

/-- Embedding of `EventProcessor::format_time_int_to_string`: non-positive
times render as "00:00"; otherwise the decimal digits are zero-padded to at
least four and the first two byte ranges `[0..2]`/`[2..4]` are joined with a
colon, exactly as the Rust slicing does. -/
def format_time_int_to_string (timeInt : Int) : String :=
  if timeInt ≤ 0 then "00:00"
  else
    let s := toString timeInt.toNat
    let s4 := if s.length < 4 then String.mk (List.replicate (4 - s.length) '0') ++ s else s
    String.mk (s4.data.take 2) ++ ":" ++ String.mk ((s4.data.drop 2).take 2)

/-- Embedding of `EventProcessor::get_minutes_since_start`; Rust truncating
division and remainder agree with `Int` division here because the dividend is
positive. -/
def get_minutes_since_start (timeInt : Int) : Int :=
  if timeInt ≤ 0 then 0
  else (timeInt / 100) * 60 + timeInt % 100 - START_HOUR * 60

/-- Embedding of `EventProcessor::event_to_processed_event`. -/
def event_to_processed_event (event : Event) : ProcessedEvent :=
  let startTimeInt := if event.start_time > 0 then event.start_time else 0
  let endTimeInt := if event.end_time > 0 then event.end_time else 0
  { id := event.id
    title := event.title
    start_time := event.start_time
    end_time := event.end_time
    day := event.day
    professor := event.professor
    description := event.description
    start_time_int := startTimeInt
    end_time_int := endTimeInt
    start_time_formatted := format_time_int_to_string startTimeInt
    end_time_formatted := format_time_int_to_string endTimeInt
    width := 100
    left := 0
    top_position := 0
    height_position := 0 }

/-- Embedding of `EventProcessor::has_valid_time`. -/
def has_valid_time (event : ProcessedEvent) : Bool :=
  decide (event.start_time_int > 0) && decide (event.end_time_int > 0)

/-- Two's-complement bit test `event.day & (1 << i) != 0` on the `i32` day
mask, embedded through the nonnegative representative modulo `2^32`. -/
def dayBitSet (day : Int) (i : Nat) : Bool :=
  ((day % (2 ^ 32 : Int)).toNat).testBit i

/-- Stable insertion used to model Rust's stable `sort_by` on
`start_time_int`: an element is placed after every element with a strictly
smaller key and before the first element with an equal or larger key, which
preserves the original order of equal keys. -/
def insertByStart (e : ProcessedEvent) : List ProcessedEvent → List ProcessedEvent
  | [] => [e]
  | x :: xs =>
    if x.start_time_int < e.start_time_int then x :: insertByStart e xs
    else e :: x :: xs

/-- Stable sort by `start_time_int` modelling `day_events.sort_by(...)` in
`calculate_overlap_groups`. -/
def sortByStart : List ProcessedEvent → List ProcessedEvent
  | [] => []
  | x :: xs => insertByStart x (sortByStart xs)

/-- The `overlaps_with_group` test of `calculate_overlap_groups`
(`event_processor.rs:263-268`): the scanned event starts before the end of
some member of the current group (ends converted to minutes since 8:00). -/
def overlapsGroup (currentGroup : List ProcessedEvent) (e : ProcessedEvent) : Bool :=
  currentGroup.any fun groupEvent =>
    decide (get_minutes_since_start e.start_time_int <
      get_minutes_since_start groupEvent.end_time_int)

/-- The grouping scan of `calculate_overlap_groups`
(`event_processor.rs:256-285`): events are taken in sorted order; an event
that overlaps the current group joins it, otherwise the current group (if
non-empty) is emitted and a fresh group starts; the last group is emitted at
the end. -/
def buildGroupsAux : List ProcessedEvent → List ProcessedEvent → List (List ProcessedEvent)
  | [], currentGroup => if currentGroup.isEmpty then [] else [currentGroup]
  | e :: rest, currentGroup =>
    if overlapsGroup currentGroup e then buildGroupsAux rest (currentGroup ++ [e])
    else if currentGroup.isEmpty then buildGroupsAux rest [e]
    else currentGroup :: buildGroupsAux rest [e]

/-- The width/left assignment of `calculate_overlap_groups`
(`event_processor.rs:288-297`): in a group of size `N`, member `index` gets
width `100/N` and left offset `index * (100/N)`. -/
def assignGroup (group : List ProcessedEvent) : List ProcessedEvent :=
  group.enum.map fun indexed =>
    { indexed.2 with
        width := 100 / (group.length : ℚ)
        left := (indexed.1 : ℚ) * (100 / (group.length : ℚ)) }

/-- Embedding of `EventProcessor::calculate_overlap_groups`.  In Rust the
groups hold indices into the sorted vector and the widths are written back in
place; since the scan puts every element of the sorted list into exactly one
group, in order, the updated vector is the in-order concatenation of the
updated groups. -/
def calculate_overlap_groups (dayEvents : List ProcessedEvent) : List ProcessedEvent :=
  (buildGroupsAux (sortByStart dayEvents) []).flatMap assignGroup

/-- The per-event body of `EventProcessor::calculate_positioning`. -/
def positionOne (e : ProcessedEvent) : ProcessedEvent :=
  let startMinutes := get_minutes_since_start e.start_time_int
  let endMinutes := get_minutes_since_start e.end_time_int
  let duration := max (endMinutes - startMinutes) 0
  { e with
      top_position := (startMinutes : ℚ) / (TOTAL_MINUTES_IN_VIEW : ℚ) * 100
      height_position := (duration : ℚ) / (TOTAL_MINUTES_IN_VIEW : ℚ) * 100 }

/-- Embedding of `EventProcessor::calculate_positioning`. -/
def calculate_positioning (dayEvents : List ProcessedEvent) : List ProcessedEvent :=
  dayEvents.map positionOne

/-- Embedding of `EventProcessor::process_events`.  The two `HashMap`s keyed
by `"0".."6"` are embedded as functions from the day index; a day with no
entry is the empty list.  For each day of timed events the Rust code runs
`calculate_overlap_groups` then `calculate_positioning` in place. -/
def process_events (rawEvents : List Event) :
    (Nat → List ProcessedEvent) × (Nat → List ProcessedEvent) :=
  if rawEvents.isEmpty then (fun _ => [], fun _ => [])
  else
    let processedEvents := rawEvents.map event_to_processed_event
    (fun d =>
        if d < 7 then
          calculate_positioning (calculate_overlap_groups
            (processedEvents.filter fun e => dayBitSet e.day d && has_valid_time e))
        else [],
     fun d =>
        if d < 7 then
          processedEvents.filter fun e => dayBitSet e.day d && !has_valid_time e
        else [])

/-! ## Specification-side definitions

These follow the wording of the specification (brute-force cross product,
strict blocked-event overlap, maximum-end cluster test, active time slots)
and are compared against the embedded source functions. -/

/-- Class-level view of one `backtrack` step: the candidate conflicts with no
already-chosen class. -/
def compatibleC (c : Class) (chosen : List Class) : Bool :=
  chosen.all fun e => ! classConflict c e

/-- Class-level backtracking: the index-based `backtrack` with every index
replaced by the class it denotes.  Proof intermediary between
`generate_combinations` and the brute-force description. -/
def backtrackC (groups : List (List Class)) (current : List Class) : List (List Class) :=
  match groups with
  | [] => [current]
  | g :: rest =>
    g.flatMap fun c =>
      if compatibleC c current then backtrackC rest (current ++ [c]) else []

/-- Incremental validity of a selection suffix against the already-fixed
prefix: each element must be compatible with everything before it. -/
def chainOK (current : List Class) : List Class → Bool
  | [] => true
  | c :: rest => compatibleC c current && chainOK (current ++ [c]) rest

/-- Cross product of the groups in the spec's sense: one class per group, in
group order, lexicographically by the order inside each group. -/
def cartProd : List (List Class) → List (List Class)
  | [] => [[]]
  | g :: rest => g.flatMap fun c => (cartProd rest).map (c :: ·)

/-- Pairwise absence of conflicts in a selection, as the spec's brute-force
filter demands. -/
def pairwiseOK : List Class → Bool
  | [] => true
  | c :: rest => rest.all (fun e => ! classConflict c e) && pairwiseOK rest

/-- A selection drawn from the groups filtered to the conflict-free ones —
the spec's brute-force description of the generator. -/
def bruteForceCombinations (classes : List (List Class)) : List (List Class) :=
  (cartProd classes).filter pairwiseOK

/-- Spec wording for C6: the section has at least one active weekly time
slot. -/
def hasActiveSlot (sec : Class) : Bool :=
  sec.classes.any fun blk => blk.days.any fun slot => slot.2

/-- Spec wording for C5: `validate_time_ok` with the strict overlap rule
`slot.start < event.end AND event.start < slot.end` in place of the source's
inclusive one. -/
def validate_time_strict (events : List EventParam) (days : List Slot) : Bool :=
  days.enum.all fun dayEntry =>
    !dayEntry.2.2 ||
      events.all fun event =>
        !(event.days.getD dayEntry.1 false) ||
          !(decide (dayEntry.2.1.1 < event.time.2) && decide (event.time.1 < dayEntry.2.1.2))

/-- Maximum end time (in minutes since 8:00) over a cluster, `none` for the
empty cluster. -/
def maxEnds : List ProcessedEvent → Option Int
  | [] => none
  | g :: gs =>
    some (match maxEnds gs with
      | none => get_minutes_since_start g.end_time_int
      | some m => max (get_minutes_since_start g.end_time_int) m)

/-- Spec wording for C8's join test: the event starts strictly before the
maximum end time of the events already in the cluster. -/
def overlapsGroupSpec (currentGroup : List ProcessedEvent) (e : ProcessedEvent) : Bool :=
  match maxEnds currentGroup with
  | none => false
  | some m => decide (get_minutes_since_start e.start_time_int < m)

/-- The grouping scan with the spec's maximum-end join test. -/
def buildGroupsSpecAux : List ProcessedEvent → List ProcessedEvent → List (List ProcessedEvent)
  | [], currentGroup => if currentGroup.isEmpty then [] else [currentGroup]
  | e :: rest, currentGroup =>
    if overlapsGroupSpec currentGroup e then buildGroupsSpecAux rest (currentGroup ++ [e])
    else if currentGroup.isEmpty then buildGroupsSpecAux rest [e]
    else currentGroup :: buildGroupsSpecAux rest [e]

/-- The per-day layout pass as the spec words it: sort ascending by start,
cluster by the maximum-end rule, then give member `i` of a size-`N` cluster
width `100/N` and left offset `i * 100/N`. -/
def calculate_overlap_groups_spec (dayEvents : List ProcessedEvent) : List ProcessedEvent :=
  (buildGroupsSpecAux (sortByStart dayEvents) []).flatMap fun group =>
    group.enum.map fun indexed =>
      { indexed.2 with
          width := 100 / (group.length : ℚ)
          left := (indexed.1 : ℚ) * (100 / (group.length : ℚ)) }

/-- Erase the two per-day layout fields; used to compare the per-day copies
of a multi-day event. -/
def stripWL (e : ProcessedEvent) : ProcessedEvent :=
  { e with width := 0, left := 0 }

/-! ## Concrete fixtures

Small concrete values used to instantiate the theorems below. -/

/-- Week with only Monday 9:00–10:00 active. -/
def mon9to10 : TimeBlock :=
  { sectionId := "001", location := "Room A"
    days := [((900, 1000), true), ((0, 0), false), ((0, 0), false),
             ((0, 0), false), ((0, 0), false)]
    instructor := "Smith" }

/-- Week with only Monday 10:00–11:00 active. -/
def mon10to11 : TimeBlock :=
  { sectionId := "002", location := "Room B"
    days := [((1000, 1100), true), ((0, 0), false), ((0, 0), false),
             ((0, 0), false), ((0, 0), false)]
    instructor := "Jones" }

/-- Week with no active day (a distance-education style block). -/
def noDayBlock : TimeBlock :=
  { sectionId := "601", location := "Distance Education - Online"
    days := [((-1, -1), false), ((-1, -1), false), ((-1, -1), false),
             ((-1, -1), false), ((-1, -1), false)]
    instructor := "Lee" }

/-- Course section meeting Monday 9:00–10:00. -/
def cA : Class :=
  { code := "CSC 111", name := "Intro", description := "d", classes := [mon9to10] }

/-- Course section meeting Monday 10:00–11:00. -/
def cB : Class :=
  { code := "MA 141", name := "Calc", description := "d", classes := [mon10to11] }

/-- Course section with a time block active on no day. -/
def cNoDays : Class :=
  { code := "ENG 101", name := "Comp", description := "d", classes := [noDayBlock] }

/-- Unconstrained user request for one course. -/
def cpAny : ClassParam :=
  { id := "1", code := "CSC 111", name := "Intro", sectionId := "", instructor := "" }

/-- Parameters requesting one course with no constraints and no blocked events. -/
def paramsOne : ScrapeClassesParameters :=
  { paramsCheckbox := [], classes := [cpAny], events := [] }

/-- A blocked event Monday 10:00–11:00. -/
def evMon10to11 : EventParam :=
  { time := (1000, 1100), days := [true, false, false, false, false] }

/-- Calendar event on days 1 and 3 (mask 10), 9:00–10:00. -/
def evtA : Event :=
  { id := "a", title := "A", start_time := 900, end_time := 1000, day := 10,
    professor := "", description := "" }

/-- Calendar event on day 1 only (mask 2), 9:30–10:30. -/
def evtB : Event :=
  { id := "b", title := "B", start_time := 930, end_time := 1030, day := 2,
    professor := "", description := "" }

/-! ## Helper lemmas -/

/-- Bool equality from propositional equivalence. -/
theorem boolExt {a b : Bool} (h : a = true ↔ b = true) : a = b :=
  Bool.coe_iff_coe.mp h

/-- Characterisation of the per-day conflict test. -/
theorem slotConflict_eq_true_iff (a b : Slot) :
    slotConflict a b = true ↔
      a.2 = true ∧ b.2 = true ∧ a.1.1 < b.1.2 ∧ b.1.1 < a.1.2 := by
  simp [slotConflict, and_assoc, gt_iff_lt]

/-- The per-day conflict test is symmetric. -/
theorem slotConflict_symm (a b : Slot) : slotConflict a b = slotConflict b a := by
  refine boolExt ?_
  simp only [slotConflict_eq_true_iff]
  tauto

/-- Conflict between classes is symmetric. -/
theorem classConflict_symm (a b : Class) : classConflict a b = classConflict b a := by
  refine boolExt ?_
  simp only [classConflict, timeBlockConflict, List.any_eq_true]
  constructor
  · rintro ⟨ns, hns, es, hes, i, hi, h⟩
    exact ⟨es, hes, ns, hns, i, hi, by rwa [slotConflict_symm]⟩
  · rintro ⟨ns, hns, es, hes, i, hi, h⟩
    exact ⟨es, hes, ns, hns, i, hi, by rwa [slotConflict_symm]⟩

/-- `all` distributes over a pointwise conjunction. -/
theorem all_and {α : Type} (l : List α) (p q : α → Bool) :
    (l.all fun a => p a && q a) = (l.all p && l.all q) := by
  induction l with
  | nil => rfl
  | cons a t ih => simp [List.all_cons, ih, Bool.and_assoc, Bool.and_left_comm]

/-- `is_compatible` is the class-level compatibility of the denoted classes. -/
theorem is_compatible_eq (flat : List Class) (idx : Nat) (sched : List Nat) :
    is_compatible flat idx sched =
      compatibleC (flat.getD idx default) (sched.map fun i => flat.getD i default) := by
  induction sched with
  | nil => rfl
  | cons a t ih => simp [is_compatible, compatibleC, List.all_cons] at ih ⊢; rw [ih]

/-- `buildIndices` yields one index list per group. -/
theorem buildIndices_length :
    ∀ (groups : List (List Class)) (offset : Nat),
      (buildIndices groups offset).length = groups.length := by
  intro groups
  induction groups with
  | nil => intro offset; rfl
  | cons g rest ih => intro offset; simp [buildIndices, ih]

/-- Index-level backtracking, read back through the flattened class list,
is class-level backtracking. -/
theorem backtrack_map_getD (flat : List Class) (classIndices : List (List Nat)) :
    ∀ (current : List Nat) (total : Nat),
      current.length + classIndices.length = total →
      (backtrack flat classIndices current total).map
          (List.map fun i => flat.getD i default) =
        backtrackC (classIndices.map (List.map fun i => flat.getD i default))
          (current.map fun i => flat.getD i default) := by
  induction classIndices with
  | nil =>
      intro current total h
      simp only [List.length_nil, Nat.add_zero] at h
      simp [backtrack, backtrackC, h]
  | cons g rest ih =>
      intro current total h
      simp only [backtrack, backtrackC, List.map_cons, List.map_flatMap, List.flatMap_map,
        Function.comp]
      refine congrArg (List.flatMap g) (funext fun idx => ?_)
      rw [is_compatible_eq, apply_ite (List.map (List.map fun i => flat.getD i default))]
      by_cases hc : compatibleC (flat.getD idx default)
          (current.map fun i => flat.getD i default) = true
      · rw [if_pos hc, if_pos hc, ih (current ++ [idx]) total
          (by simp only [List.length_append, List.length_cons, List.length_nil] at h ⊢; omega),
          List.map_append]
        rfl
      · rw [if_neg hc, if_neg hc]
        rfl

/-- Reading the positions `0..l.length` of a list back through `getD`
reproduces the list. -/
theorem range_map_getD {α : Type} [Inhabited α] :
    ∀ (l : List α), (List.range l.length).map (fun j => l.getD j default) = l := by
  intro l
  induction l with
  | nil => rfl
  | cons a t ih =>
      rw [List.length_cons, List.range_succ_eq_map, List.map_cons, List.map_map]
      simp only [List.getD_cons_zero]
      refine congrArg (a :: ·) ?_
      rw [show ((fun j => (a :: t).getD j default) ∘ Nat.succ) =
        (fun j => t.getD j default) from funext fun j => rfl]
      exact ih

/-- The index structure built by `generate_combinations` denotes exactly the
input groups once read back through the flattened class list. -/
theorem buildIndices_map_getD :
    ∀ (groups : List (List Class)) (offset : Nat) (flat : List Class),
      flat.drop offset = groups.flatten →
      (buildIndices groups offset).map (List.map fun i => flat.getD i default) =
        groups := by
  intro groups
  induction groups with
  | nil => intro offset flat _; rfl
  | cons g rest ih =>
      intro offset flat h
      simp only [buildIndices, List.map_cons, List.map_map]
      refine congrArg₂ (· :: ·) ?_ ?_
      · have hgd : ∀ j, j < g.length →
            flat.getD (j + offset) default = g.getD j default := by
          intro j hj
          have h1 : flat.getD (j + offset) default = (flat.drop offset).getD j default := by
            show (flat.get? (j + offset)).getD default = ((flat.drop offset).get? j).getD default
            rw [List.get?_drop, Nat.add_comm]
          rw [h1, h]
          show ((g ++ rest.flatten).get? j).getD default = (g.get? j).getD default
          rw [List.get?_append hj]
        calc (List.range g.length).map ((fun i => flat.getD i default) ∘ (· + offset))
            = (List.range g.length).map (fun j => g.getD j default) := by
              refine List.map_congr_left ?_
              intro j hj
              simp only [Function.comp]
              exact hgd j (List.mem_range.mp hj)
          _ = g := range_map_getD g
      · refine ih (offset + g.length) flat ?_
        rw [← List.drop_drop, h, List.flatten_cons, List.drop_left]

/-- Class-level backtracking filters the cross product of the remaining
groups by incremental validity against the fixed prefix. -/
theorem backtrackC_eq_filter :
    ∀ (groups : List (List Class)) (current : List Class),
      backtrackC groups current =
        ((cartProd groups).filter (chainOK current)).map (current ++ ·) := by
  intro groups
  induction groups with
  | nil =>
      intro current
      simp [backtrackC, cartProd, chainOK, List.filter_cons]
  | cons g rest ih =>
      intro current
      simp only [backtrackC, cartProd, List.filter_flatMap, List.map_flatMap]
      refine congrArg (List.flatMap g) (funext fun c => ?_)
      rw [List.map_filter, List.map_map]
      have hchain : ∀ s, (chainOK current ∘ (c :: ·)) s =
          (compatibleC c current && chainOK (current ++ [c]) s) := fun s => rfl
      by_cases hc : compatibleC c current
      · simp only [hc, if_true, ih (current ++ [c])]
        refine congrArg₂ List.map ?_ ?_
        · funext s
          show (current ++ [c]) ++ s = current ++ c :: s
          exact (List.append_cons current c s).symm
        · refine List.filter_congr' ?_
          intro s _
          rw [hchain, hc, Bool.true_and]
      · simp only [hc, if_false]
        have : ∀ s ∈ cartProd rest, (chainOK current ∘ (c :: ·)) s = false := by
          intro s _
          rw [hchain]
          simp [hc]
        rw [List.filter_congr' this]
        simp [List.filter_false]

/-- `compatibleC` against an extended prefix splits into the two checks. -/
theorem compatibleC_append (c x : Class) (cur : List Class) :
    compatibleC c (cur ++ [x]) = (compatibleC c cur && ! classConflict c x) := by
  simp [compatibleC, List.all_append]

/-- Incremental validity from the empty prefix is exactly pairwise absence of
conflicts. -/
theorem chainOK_eq (s : List Class) :
    ∀ (cur : List Class),
      chainOK cur s = ((s.all fun c => compatibleC c cur) && pairwiseOK s) := by
  induction s with
  | nil => intro cur; rfl
  | cons c rest ih =>
      intro cur
      have hsym : (fun x => ! classConflict x c) = (fun x => ! classConflict c x) := by
        funext x
        rw [classConflict_symm]
      calc chainOK cur (c :: rest)
          = (compatibleC c cur && chainOK (cur ++ [c]) rest) := rfl
        _ = (compatibleC c cur &&
              ((rest.all fun x => compatibleC x (cur ++ [c])) && pairwiseOK rest)) := by
            rw [ih]
        _ = (compatibleC c cur &&
              ((rest.all fun x => compatibleC x cur && ! classConflict x c) && pairwiseOK rest)) := by
            refine congrArg _ (congrArg₂ (· && ·) ?_ rfl)
            refine congrArg _ (funext fun x => ?_)
            exact compatibleC_append x c cur
        _ = ((c :: rest).all (fun x => compatibleC x cur) && pairwiseOK (c :: rest)) := by
            rw [all_and]
            refine boolExt ?_
            simp only [pairwiseOK, List.all_cons, hsym, Bool.and_eq_true]
            tauto

/-- The generator equals the spec's brute-force description: cross product of
the groups filtered to the pairwise conflict-free selections. -/
theorem generate_eq_brute (classes : List (List Class)) :
    generate_combinations classes = Except.ok (bruteForceCombinations classes) := by
  show Except.ok ((backtrack classes.flatten (buildIndices classes 0) [] classes.length).map
      fun schedule => schedule.map fun idx => classes.flatten.getD idx default) = _
  refine congrArg Except.ok ?_
  have h0 : ([] : List Nat).length + (buildIndices classes 0).length = classes.length := by
    simp [buildIndices_length]
  have h1 := backtrack_map_getD classes.flatten (buildIndices classes 0) [] classes.length h0
  have h2 : (buildIndices classes 0).map (List.map fun i => classes.flatten.getD i default)
      = classes := buildIndices_map_getD classes 0 classes.flatten (by rfl)
  rw [show ((backtrack classes.flatten (buildIndices classes 0) [] classes.length).map
      fun schedule => schedule.map fun idx => classes.flatten.getD idx default) =
      ((backtrack classes.flatten (buildIndices classes 0) [] classes.length).map
      (List.map fun i => classes.flatten.getD i default)) from rfl]
  rw [h1, h2]
  show backtrackC classes [] = _
  rw [backtrackC_eq_filter]
  have h3 : ∀ s ∈ cartProd classes, chainOK [] s = pairwiseOK s := by
    intro s _
    rw [chainOK_eq]
    have : (s.all fun c => compatibleC c []) = true := by
      simp [compatibleC]
    rw [this, Bool.true_and]
  rw [List.filter_congr' h3]
  have h4 : ((cartProd classes).filter pairwiseOK).map (([] : List Class) ++ ·) =
      (cartProd classes).filter pairwiseOK := by
    simp
  rw [h4]
  rfl

/-- `pairwiseOK` is `List.Pairwise` absence of conflicts. -/
theorem pairwiseOK_iff (s : List Class) :
    pairwiseOK s = true ↔ s.Pairwise (fun a b => classConflict a b = false) := by
  induction s with
  | nil => simp [pairwiseOK]
  | cons c rest ih =>
      simp [pairwiseOK, List.pairwise_cons, List.all_eq_true, Bool.not_eq_true', ih]

/-- An empty group collapses the cross product. -/
theorem cartProd_eq_nil_of_mem :
    ∀ (groups : List (List Class)), [] ∈ groups → cartProd groups = [] := by
  intro groups
  induction groups with
  | nil => intro h; cases h
  | cons g rest ih =>
      intro h
      rcases List.mem_cons.mp h with h1 | h2
      · rw [← h1]
        rfl
      · simp [cartProd, ih h2]

/-- Shape of a cross-product member: full length, one element per group. -/
theorem mem_cartProd_shape :
    ∀ (groups : List (List Class)) (s : List Class), s ∈ cartProd groups →
      s.length = groups.length ∧
        ∀ i, i < groups.length → s.getD i default ∈ groups.getD i [] := by
  intro groups
  induction groups with
  | nil =>
      intro s hs
      simp only [cartProd, List.mem_singleton] at hs
      subst hs
      exact ⟨rfl, fun i hi => absurd hi (by simp)⟩
  | cons g rest ih =>
      intro s hs
      simp only [cartProd] at hs
      rw [List.mem_flatMap] at hs
      obtain ⟨c, hc, hs⟩ := hs
      rw [List.mem_map] at hs
      obtain ⟨t, ht, rfl⟩ := hs
      obtain ⟨hlen, hmem⟩ := ih t ht
      refine ⟨by simp [hlen], ?_⟩
      intro i hi
      cases i with
      | zero => exact hc
      | succ n => exact hmem n (Nat.lt_of_succ_lt_succ hi)

/-- Every element of a cross-product member comes from some group. -/
theorem mem_cartProd_mem :
    ∀ (groups : List (List Class)) (s : List Class), s ∈ cartProd groups →
      ∀ x ∈ s, ∃ g ∈ groups, x ∈ g := by
  intro groups
  induction groups with
  | nil =>
      intro s hs
      simp only [cartProd, List.mem_singleton] at hs
      subst hs
      intro x hx
      cases hx
  | cons g rest ih =>
      intro s hs
      simp only [cartProd] at hs
      rw [List.mem_flatMap] at hs
      obtain ⟨c, hc, hs⟩ := hs
      rw [List.mem_map] at hs
      obtain ⟨t, ht, rfl⟩ := hs
      intro x hx
      rcases List.mem_cons.mp hx with h1 | h2
      · exact ⟨g, List.mem_cons_self g rest, h1 ▸ hc⟩
      · obtain ⟨g', hg', hx'⟩ := ih t ht x h2
        exact ⟨g', List.mem_cons_of_mem g hg', hx'⟩

/-- Every section of every group produced by `filter_classes` passed
`sectionKeep` for some constraint. -/
theorem filter_classes_sections (inputClasses : List (List Class))
    (parameters : ScrapeClassesParameters) (filteredGroups : List (List Class))
    (h : filter_classes inputClasses parameters = Except.ok filteredGroups) :
    ∀ g ∈ filteredGroups, ∀ x ∈ g,
      ∃ d, sectionKeep d parameters.events x = true := by
  unfold filter_classes at h
  by_cases he : inputClasses.isEmpty
  · rw [if_pos he] at h
    injection h with h
    subst h
    intro g hg
    cases hg
  · rw [if_neg he] at h
    injection h with h
    subst h
    intro g hg x hx
    rw [List.mem_map] at hg
    obtain ⟨pair, _, rfl⟩ := hg
    rw [List.mem_filter] at hx
    exact ⟨pair.2, hx.2⟩

/-- The fourth conjunct of `sectionKeep`: all blocks clear the user events. -/
theorem sectionKeep_validate (d : ClassParam) (events : List EventParam) (sec : Class)
    (h : sectionKeep d events sec = true) :
    (sec.classes.all fun timeBlock => validate_time_ok events timeBlock.days) = true := by
  simp only [sectionKeep, Bool.and_eq_true] at h
  exact h.2

/-! ## Claim theorems -/

/-- C2: `generate_combinations` returns every valid combination — its result
equals the brute-force cross product of the input groups filtered to the
selections with no two conflicting sections; nothing valid is omitted and
nothing invalid included. -/
theorem generate_combinations_eq_bruteforce (classes : List (List Class)) :
    generate_combinations classes = Except.ok (bruteForceCombinations classes) :=
  generate_eq_brute classes

/-- C10: called with zero groups, `generate_combinations` returns the
one-element list containing the empty combination, because the backtracking
base case fires immediately. -/
theorem generate_combinations_zero_groups :
    generate_combinations ([] : List (List Class)) = Except.ok [[]] := rfl

/-- C7: `generate_combinations` has no intrinsic error condition — on every
input it returns `Ok`, and whenever some input group is empty the result is
exactly the empty list. -/
theorem generate_combinations_total_and_empty (classes : List (List Class)) :
    (∃ r, generate_combinations classes = Except.ok r) ∧
      ((∃ g ∈ classes, g = []) → generate_combinations classes = Except.ok []) := by
  refine ⟨⟨_, generate_eq_brute classes⟩, ?_⟩
  rintro ⟨g, hg, rfl⟩
  rw [generate_eq_brute]
  rw [show bruteForceCombinations classes = [] from ?_]
  unfold bruteForceCombinations
  rw [cartProd_eq_nil_of_mem classes hg]
  rfl

/-- Witness for C7 at a concrete input containing an empty group. -/
theorem generate_combinations_total_and_empty_witness :
    generate_combinations [[cA], []] = Except.ok [] :=
  (generate_combinations_total_and_empty [[cA], []]).2 ⟨[], by decide, rfl⟩

/-- C3: every returned combination has one element per input group, the i-th
drawn from the i-th group: no course missing, no course doubled, no partial
combinations. -/
theorem generate_combinations_shape (classes combos : List (List Class))
    (combo : List Class)
    (h1 : generate_combinations classes = Except.ok combos) (h2 : combo ∈ combos) :
    combo.length = classes.length ∧
      ∀ i, i < classes.length → combo.getD i default ∈ classes.getD i [] := by
  rw [generate_eq_brute] at h1
  injection h1 with h1
  subst h1
  have hcp : combo ∈ cartProd classes := (List.mem_filter.mp h2).1
  exact mem_cartProd_shape classes combo hcp

/-- Witness for C3 on two singleton groups. -/
theorem generate_combinations_shape_witness :
    ([cA, cB] : List Class).length = ([[cA], [cB]] : List (List Class)).length ∧
      ∀ i, i < ([[cA], [cB]] : List (List Class)).length →
        ([cA, cB] : List Class).getD i default ∈ ([[cA], [cB]] : List (List Class)).getD i [] :=
  generate_combinations_shape [[cA], [cB]] [[cA, cB]] [cA, cB] (by decide) (by decide)

/-- C1: every combination produced by the `filter_classes` then
`generate_combinations` pipeline is pairwise conflict-free and each of its
sections clears every user blocked event. -/
theorem pipeline_no_conflicts (inputClasses : List (List Class))
    (parameters : ScrapeClassesParameters)
    (filteredGroups combos : List (List Class)) (combo : List Class)
    (h1 : filter_classes inputClasses parameters = Except.ok filteredGroups)
    (h2 : generate_combinations filteredGroups = Except.ok combos)
    (h3 : combo ∈ combos) :
    combo.Pairwise (fun a b => classConflict a b = false) ∧
      ∀ sec ∈ combo, (sec.classes.all fun timeBlock =>
        validate_time_ok parameters.events timeBlock.days) = true := by
  rw [generate_eq_brute] at h2
  injection h2 with h2
  subst h2
  have hf := List.mem_filter.mp h3
  constructor
  · exact (pairwiseOK_iff combo).mp hf.2
  · intro sec hsec
    obtain ⟨g, hg, hsecg⟩ := mem_cartProd_mem filteredGroups combo hf.1 sec hsec
    obtain ⟨d, hd⟩ := filter_classes_sections inputClasses parameters filteredGroups h1 g hg sec hsecg
    exact sectionKeep_validate d parameters.events sec hd

/-- Witness for C1 on a one-course pipeline run. -/
theorem pipeline_no_conflicts_witness :
    ([cA] : List Class).Pairwise (fun a b => classConflict a b = false) ∧
      ∀ sec ∈ ([cA] : List Class), (sec.classes.all fun timeBlock =>
        validate_time_ok paramsOne.events timeBlock.days) = true :=
  pipeline_no_conflicts [[cA]] paramsOne [[cA]] [[cA]] [cA]
    (by decide) (by decide) (by decide)

/-- C4: the per-day conflict test of the combination generator declares a
conflict on a shared active day iff `a.start < b.end` and `b.start < a.end`
(strict); a 9:00–10:00 slot and a 10:00–11:00 slot do not conflict; inactive
slots never conflict. -/
theorem slot_conflict_strict_overlap :
    (∀ a b : Slot, slotConflict a b = true ↔
        a.2 = true ∧ b.2 = true ∧ a.1.1 < b.1.2 ∧ b.1.1 < a.1.2) ∧
      slotConflict ((900, 1000), true) ((1000, 1100), true) = false ∧
      (∀ a b : Slot, a.2 = false ∨ b.2 = false → slotConflict a b = false) := by
  refine ⟨slotConflict_eq_true_iff, by decide, ?_⟩
  intro a b h
  rcases h with h | h <;> simp [slotConflict, h]

/-- Witness for C4 applying the inactive-slot part at a concrete input. -/
theorem slot_conflict_strict_overlap_witness :
    slotConflict ((900, 1000), false) ((900, 1000), true) = false :=
  slot_conflict_strict_overlap.2.2 ((900, 1000), false) ((900, 1000), true) (Or.inl rfl)

/-- Counterexample for C5: the blocked-event test is not the strict rule — a
9:00–10:00 Monday slot touching a 10:00–11:00 Monday blocked event is
rejected by `validate_time_ok` although the strict rule accepts it. -/
theorem validate_time_ok_not_strict_counterexample :
    validate_time_ok [evMon10to11] mon9to10.days = false ∧
      validate_time_strict [evMon10to11] mon9to10.days = true := by decide

/-- Conjunction of two decided propositions is false iff the conjunction
fails. -/
theorem decide_and_eq_false_iff (P Q : Prop) [Decidable P] [Decidable Q] :
    ((decide P && decide Q) = false) ↔ ¬(P ∧ Q) := by
  by_cases hP : P <;> by_cases hQ : Q <;> simp [hP, hQ]

/-- C5 (amended): `validate_time_ok` accepts a week iff on every active day
no user event active that day satisfies the inclusive overlap
`slot.start ≤ event.end ∧ event.start ≤ slot.end`; boundary touching is
therefore filtered out. -/
theorem validate_time_ok_inclusive_overlap (events : List EventParam)
    (days : List Slot) :
    validate_time_ok events days = true ↔
      ∀ p ∈ days.enum, p.2.2 = true →
        ∀ ev ∈ events, ev.days.getD p.1 false = true →
          ¬(p.2.1.1 ≤ ev.time.2 ∧ ev.time.1 ≤ p.2.1.2) := by
  simp only [validate_time_ok, List.all_eq_true, Bool.or_eq_true, Bool.not_eq_true',
    ge_iff_le, decide_and_eq_false_iff]
  constructor
  · intro h p hp hact ev hev hd
    rcases h p hp with h1 | h2
    · rw [hact] at h1
      cases h1
    · rcases h2 ev hev with h3 | h4
      · rw [hd] at h3
        cases h3
      · exact h4
  · intro h p hp
    by_cases hact : p.2.2 = true
    · right
      intro ev hev
      by_cases hd : ev.days.getD p.1 false = true
      · exact Or.inr (h p hp hact ev hev hd)
      · exact Or.inl (by revert hd; cases ev.days.getD p.1 false <;> simp)
    · exact Or.inl (by revert hact; cases p.2.2 <;> simp)

/-- Witness for C5 on the empty event list. -/
theorem validate_time_ok_inclusive_overlap_witness :
    validate_time_ok [] mon9to10.days = true :=
  (validate_time_ok_inclusive_overlap [] mon9to10.days).mpr
    (fun _ _ _ ev hev => absurd hev (by simp))

/-- Counterexample for C6: a section whose single time block is active on no
day (it has no active weekly time slot) is nevertheless kept by
`filter_classes`. -/
theorem filter_classes_keeps_inactive_section :
    filter_classes [[cNoDays]] paramsOne = Except.ok [[cNoDays]] ∧
      hasActiveSlot cNoDays = false := by decide

/-- `sectionKeep` spelled out as the four membership conditions. -/
theorem sectionKeep_iff (d : ClassParam) (evs : List EventParam) (sec : Class) :
    sectionKeep d evs sec = true ↔
      sec.classes ≠ [] ∧
      (d.sectionId ≠ "" → ∃ blk ∈ sec.classes, blk.sectionId = d.sectionId) ∧
      (d.instructor ≠ "" →
        ∃ blk ∈ sec.classes, eqIgnoreAsciiCase blk.instructor d.instructor = true) ∧
      ∀ tb ∈ sec.classes, validate_time_ok evs tb.days = true := by
  simp only [sectionKeep, Bool.and_eq_true, Bool.or_eq_true, Bool.not_eq_true',
    List.any_eq_true, List.all_eq_true, beq_iff_eq, String.isEmpty_iff,
    List.isEmpty_eq_false]
  constructor
  · rintro ⟨⟨⟨h1, h2⟩, h3⟩, h4⟩
    exact ⟨h1, fun hs => h2.resolve_left hs, fun hs => h3.resolve_left hs, h4⟩
  · rintro ⟨h1, h2, h3, h4⟩
    refine ⟨⟨⟨h1, ?_⟩, ?_⟩, h4⟩
    · by_cases hs : d.sectionId = ""
      · exact Or.inl hs
      · exact Or.inr (h2 hs)
    · by_cases hs : d.instructor = ""
      · exact Or.inl hs
      · exact Or.inr (h3 hs)

/-- Positional description of the non-empty branch of `filter_classes`. -/
theorem zip_map_filter_getD :
    ∀ (input : List (List Class)) (cps : List ClassParam) (i : Nat)
      (evs : List EventParam), i < input.length → cps.length = input.length →
      ((input.zip cps).map fun pr =>
          pr.1.filter (sectionKeep pr.2 evs)).getD i [] =
        (input.getD i []).filter (sectionKeep (cps.getD i default) evs) := by
  intro input
  induction input with
  | nil =>
      intro cps i evs hi _
      simp at hi
  | cons g rest ih =>
      intro cps i evs hi hlen
      cases cps with
      | nil => simp at hlen
      | cons d cps' =>
          cases i with
          | zero => rfl
          | succ n =>
              exact ih cps' n evs (Nat.lt_of_succ_lt_succ hi)
                (by simpa using hlen)

/-- C6 (amended): with equally many raw groups and constraints,
`filter_classes` returns equally many groups, positionally filtered (empty
groups kept), and a section is kept iff its time-block list is non-empty
(it may still have no active day), its section id matches when the
constraint sets one, its instructor matches ASCII-case-insensitively when
set, and no time block overlaps a user blocked event. -/
theorem filter_classes_spec (inputClasses : List (List Class))
    (parameters : ScrapeClassesParameters)
    (h : parameters.classes.length = inputClasses.length) :
    ∃ r, filter_classes inputClasses parameters = Except.ok r ∧
      r.length = inputClasses.length ∧
      ∀ i, i < inputClasses.length →
        r.getD i [] = (inputClasses.getD i []).filter
          (sectionKeep (parameters.classes.getD i default) parameters.events) ∧
        ∀ sec, sec ∈ r.getD i [] ↔
          sec ∈ inputClasses.getD i [] ∧
          sec.classes ≠ [] ∧
          ((parameters.classes.getD i default).sectionId ≠ "" →
            ∃ blk ∈ sec.classes,
              blk.sectionId = (parameters.classes.getD i default).sectionId) ∧
          ((parameters.classes.getD i default).instructor ≠ "" →
            ∃ blk ∈ sec.classes, eqIgnoreAsciiCase blk.instructor
              (parameters.classes.getD i default).instructor = true) ∧
          ∀ tb ∈ sec.classes, validate_time_ok parameters.events tb.days = true := by
  by_cases he : inputClasses.isEmpty
  · have hnil : inputClasses = [] := List.isEmpty_iff.mp he
    refine ⟨[], ?_, by rw [hnil], ?_⟩
    · unfold filter_classes
      rw [if_pos he]
    · intro i hi
      rw [hnil] at hi
      simp at hi
  · refine ⟨(inputClasses.zip parameters.classes).map fun pr =>
        pr.1.filter (sectionKeep pr.2 parameters.events), ?_, ?_, ?_⟩
    · unfold filter_classes
      rw [if_neg he]
    · rw [List.length_map, List.length_zip, h]
      exact Nat.min_self _
    · intro i hi
      have hg := zip_map_filter_getD inputClasses parameters.classes i
        parameters.events hi h
      refine ⟨hg, fun sec => ?_⟩
      rw [hg, List.mem_filter, sectionKeep_iff]

/-- Witness for C6 on a single unconstrained course. -/
theorem filter_classes_spec_witness :
    ∃ r, filter_classes [[cA]] paramsOne = Except.ok r ∧
      r.length = ([[cA]] : List (List Class)).length ∧
      ∀ i, i < ([[cA]] : List (List Class)).length →
        r.getD i [] = (([[cA]] : List (List Class)).getD i []).filter
          (sectionKeep (paramsOne.classes.getD i default) paramsOne.events) ∧
        ∀ sec, sec ∈ r.getD i [] ↔
          sec ∈ ([[cA]] : List (List Class)).getD i [] ∧
          sec.classes ≠ [] ∧
          ((paramsOne.classes.getD i default).sectionId ≠ "" →
            ∃ blk ∈ sec.classes,
              blk.sectionId = (paramsOne.classes.getD i default).sectionId) ∧
          ((paramsOne.classes.getD i default).instructor ≠ "" →
            ∃ blk ∈ sec.classes, eqIgnoreAsciiCase blk.instructor
              (paramsOne.classes.getD i default).instructor = true) ∧
          ∀ tb ∈ sec.classes, validate_time_ok paramsOne.events tb.days = true :=
  filter_classes_spec [[cA]] paramsOne rfl

/-- `maxEnds` is `none` exactly on the empty cluster. -/
theorem maxEnds_eq_none (l : List ProcessedEvent) : maxEnds l = none ↔ l = [] := by
  cases l with
  | nil => simp [maxEnds]
  | cons g gs => simp [maxEnds]

/-- The source's any-member test equals the spec's maximum-end test. -/
theorem overlapsGroup_eq_spec :
    ∀ (currentGroup : List ProcessedEvent) (e : ProcessedEvent),
      overlapsGroup currentGroup e = overlapsGroupSpec currentGroup e := by
  intro currentGroup
  induction currentGroup with
  | nil => intro e; rfl
  | cons g gs ih =>
      intro e
      rcases hgs : maxEnds gs with _ | m
      · have : gs = [] := (maxEnds_eq_none gs).mp hgs
        subst this
        simp [overlapsGroup, overlapsGroupSpec, maxEnds]
      · refine boolExt ?_
        simp only [overlapsGroup, overlapsGroupSpec, List.any_cons, maxEnds, hgs,
          Bool.or_eq_true, decide_eq_true_eq]
        have hih := ih e
        rw [overlapsGroupSpec, hgs] at hih
        simp only [overlapsGroup] at hih
        have hih' : (gs.any fun groupEvent =>
            decide (get_minutes_since_start e.start_time_int <
              get_minutes_since_start groupEvent.end_time_int)) = true ↔
            get_minutes_since_start e.start_time_int < m := by
          rw [hih]
          simp
        rw [hih']
        exact lt_sup_iff.symm

/-- The grouping scan is unchanged when the join test is replaced by the
spec's maximum-end form. -/
theorem buildGroupsAux_eq_spec :
    ∀ (pending currentGroup : List ProcessedEvent),
      buildGroupsAux pending currentGroup = buildGroupsSpecAux pending currentGroup := by
  intro pending
  induction pending with
  | nil => intro currentGroup; rfl
  | cons e rest ih =>
      intro currentGroup
      simp only [buildGroupsAux, buildGroupsSpecAux, overlapsGroup_eq_spec, ih]

/-- C8: the per-day overlap pass equals the spec's description — events
sorted by start time, an event joins the current cluster iff it starts
strictly before the cluster's maximum end time, and member `i` of a size-`N`
cluster gets width `100/N` and left offset `i * 100/N` in cluster order. -/
theorem calculate_overlap_groups_correct (dayEvents : List ProcessedEvent) :
    calculate_overlap_groups dayEvents = calculate_overlap_groups_spec dayEvents := by
  unfold calculate_overlap_groups calculate_overlap_groups_spec
  rw [buildGroupsAux_eq_spec]
  rfl

/-- Inserting by start time is a permutation-preserving cons. -/
theorem insertByStart_perm (e : ProcessedEvent) :
    ∀ l, List.Perm (insertByStart e l) (e :: l) := by
  intro l
  induction l with
  | nil => exact List.Perm.refl _
  | cons x xs ih =>
      unfold insertByStart
      by_cases h : x.start_time_int < e.start_time_int
      · rw [if_pos h]
        exact (ih.cons x).trans (List.Perm.swap e x xs)
      · rw [if_neg h]

/-- The stable sort permutes its input. -/
theorem sortByStart_perm : ∀ l, List.Perm (sortByStart l) l := by
  intro l
  induction l with
  | nil => exact List.Perm.refl _
  | cons x xs ih => exact (insertByStart_perm x (sortByStart xs)).trans (ih.cons x)

/-- The grouping scan partitions its input: flattening the groups restores
the pending list after the current group. -/
theorem flatten_buildGroupsAux :
    ∀ (pending currentGroup : List ProcessedEvent),
      (buildGroupsAux pending currentGroup).flatten = currentGroup ++ pending := by
  intro pending
  induction pending with
  | nil =>
      intro currentGroup
      cases currentGroup with
      | nil => rfl
      | cons a t => simp [buildGroupsAux]
  | cons e rest ih =>
      intro currentGroup
      unfold buildGroupsAux
      by_cases h1 : overlapsGroup currentGroup e = true
      · rw [if_pos h1, ih]
        simp [List.append_assoc]
      · rw [if_neg h1]
        by_cases h2 : currentGroup.isEmpty = true
        · rw [if_pos h2, ih]
          rw [List.isEmpty_iff.mp h2]
          rfl
        · rw [if_neg h2]
          simp [List.flatten_cons, ih]

/-- `flatMap` of a per-element `map` is a `map` over the flattening. -/
theorem flatMap_map_eq_flatten_map {α β : Type} (f : α → β) :
    ∀ (l : List (List α)), l.flatMap (List.map f) = l.flatten.map f := by
  intro l
  induction l with
  | nil => rfl
  | cons g rest ih => simp [List.flatMap_cons, List.flatten_cons, ih]

/-- Mapping a function over an enumerated list through an index-dependent
rewrite that the function cannot see is plain mapping. -/
theorem map_comp_enum {α β : Type} (l : List α) (F : α → β) (G : Nat × α → α)
    (hG : ∀ p, F (G p) = F p.2) :
    l.enum.map (fun p => F (G p)) = l.map F := by
  calc l.enum.map (fun p => F (G p))
      = l.enum.map (fun p => F p.2) := List.map_eq_map_iff.mpr fun p _ => hG p
    _ = l.map F := by
        rw [show (fun p : Nat × α => F p.2) = (F ∘ Prod.snd) from rfl,
          ← List.map_map, List.enum_map_snd]

/-- Stripping the layout fields erases the width/left assignment. -/
theorem assignGroup_map_strip (group : List ProcessedEvent) :
    (assignGroup group).map (fun e => stripWL (positionOne e)) =
      group.map fun e => stripWL (positionOne e) := by
  unfold assignGroup
  rw [List.map_map]
  exact map_comp_enum group (fun e => stripWL (positionOne e))
    (fun indexed =>
      { indexed.2 with
          width := 100 / (group.length : ℚ)
          left := (indexed.1 : ℚ) * (100 / (group.length : ℚ)) })
    (fun p => rfl)

/-- C9 (amended): `process_events` expands each event across every set bit of
its 7-bit day mask; a copy goes to the timed bucket iff both times are
positive, otherwise to the no-time bucket.  No-time copies are identical
across days; timed copies agree on every field except the per-day layout
fields `width` and `left`. -/
theorem process_events_expansion (rawEvents : List Event) (d : Nat) (hd : d < 7) :
    List.Perm (((process_events rawEvents).1 d).map stripWL)
      (((rawEvents.map event_to_processed_event).filter fun e =>
          dayBitSet e.day d && has_valid_time e).map fun e => stripWL (positionOne e)) ∧
      (process_events rawEvents).2 d =
        (rawEvents.map event_to_processed_event).filter fun e =>
          dayBitSet e.day d && !has_valid_time e := by
  by_cases he : rawEvents.isEmpty
  · have hnil : rawEvents = [] := List.isEmpty_iff.mp he
    subst hnil
    exact ⟨List.Perm.refl [], rfl⟩
  · unfold process_events
    rw [if_neg he]
    simp only [if_pos hd]
    refine ⟨?_, by trivial⟩
    unfold calculate_positioning calculate_overlap_groups
    rw [List.map_map]
    rw [show (stripWL ∘ positionOne) = (fun e => stripWL (positionOne e)) from rfl]
    rw [List.map_flatMap]
    rw [show (fun a => (assignGroup a).map fun e => stripWL (positionOne e)) =
      (List.map fun e => stripWL (positionOne e)) from
        funext fun g => assignGroup_map_strip g]
    rw [flatMap_map_eq_flatten_map, flatten_buildGroupsAux, List.nil_append]
    exact (sortByStart_perm _).map _

/-- Witness for C9 on a single two-day event. -/
theorem process_events_expansion_witness :
    List.Perm (((process_events [evtA]).1 1).map stripWL)
      ((([evtA].map event_to_processed_event).filter fun e =>
          dayBitSet e.day 1 && has_valid_time e).map fun e => stripWL (positionOne e)) ∧
      (process_events [evtA]).2 1 =
        ([evtA].map event_to_processed_event).filter fun e =>
          dayBitSet e.day 1 && !has_valid_time e :=
  process_events_expansion [evtA] 1 (by decide)

/-- Counterexample for C9 as stated: with a second event overlapping only on
day 1, the day-1 copy of event "a" gets width 50 while its day-3 copy gets
width 100 — the per-day copies are not field-identical. -/
theorem process_events_copies_not_identical :
    ((process_events [evtA, evtB]).1 1).map (fun e => (e.id, e.width)) =
        [("a", (50 : ℚ)), ("b", (50 : ℚ))] ∧
      ((process_events [evtA, evtB]).1 3).map (fun e => (e.id, e.width)) =
        [("a", (100 : ℚ))] := by
  constructor <;>
    norm_num [process_events, calculate_positioning, calculate_overlap_groups,
      sortByStart, insertByStart, buildGroupsAux, overlapsGroup, assignGroup,
      positionOne, event_to_processed_event, get_minutes_since_start,
      has_valid_time, dayBitSet, evtA, evtB, format_time_int_to_string,
      TOTAL_MINUTES_IN_VIEW, START_HOUR, END_HOUR, List.filter, List.enum,
      List.enumFrom]

end Koka
